import Mathlib

/-!
Verification of the similarity & keyword-salience computation engine of the
Embedding Similarity Playground (`app.py`): text preprocessing, vector
similarity under the three metrics, keyword surrogate construction, the
comparison record assembled by the run handler, the bounded history store,
and the pooled-history PCA projection.

Modelling conventions: Python floats are modelled as real numbers; Python
strings as `String`/`List Char`, with ASCII models of `re`'s character
classes `\w` and `\s` and of `str.lower`; `None`-able values as `Option`;
raised exceptions as `Except.error`.  The embedding provider
(SentenceTransformer) and the keyphrase provider (KeyBERT) are external
collaborators and appear as function parameters.
-/

namespace EmbeddingPlayground

/-- ASCII model of the regex word-character class `\w` (`[A-Za-z0-9_]`). -/
def isWordCh (c : Char) : Bool := c.isAlphanum || c == '_'

/-- ASCII model of the regex whitespace class `\s`. -/
def isSpaceCh (c : Char) : Bool :=
  c == ' ' || c == '\t' || c == '\n' || c == '\r' || c == '\x0b' || c == '\x0c'

/-- ASCII model of Python `str.lower`, applied characterwise. -/
def lowerCh (c : Char) : Char :=
  if 65 ≤ c.toNat ∧ c.toNat ≤ 90 then Char.ofNat (c.toNat + 32) else c

/-- `re.sub(r"[^\w\s]", " ", text)` (app.py line 29): every character that is
neither a word character nor whitespace becomes a single space. -/
def punctToSpace (l : List Char) : List Char :=
  l.map fun c => if isWordCh c || isSpaceCh c then c else ' '

/-- Worker for `re.sub(r"\s+", " ", text)`: the Boolean flag records whether
the previous character belonged to a whitespace run that has already been
replaced by a single space. -/
def collapseAux : Bool → List Char → List Char
  | _, [] => []
  | prevSpace, c :: cs =>
    if isSpaceCh c then
      if prevSpace then collapseAux true cs else ' ' :: collapseAux true cs
    else
      c :: collapseAux false cs

/-- `re.sub(r"\s+", " ", text)` (app.py line 30): each maximal whitespace run
becomes one space. -/
def collapseWS (l : List Char) : List Char := collapseAux false l

/-- Python `str.strip()`: drop leading and trailing whitespace. -/
def stripWS (l : List Char) : List Char :=
  ((l.dropWhile isSpaceCh).reverse.dropWhile isSpaceCh).reverse

/-- The punctuation-stripping pipeline of `preprocess` (app.py lines 29–30). -/
def pipeWS (l : List Char) : List Char := stripWS (collapseWS (punctToSpace l))

/-- `preprocess` on character lists. -/
def preprocessL (t : List Char) (lower strip_punct : Bool) : List Char :=
  let t1 := if lower then t.map lowerCh else t
  if strip_punct then pipeWS t1 else t1

/-- `preprocess(text, lower, strip_punct)` from app.py lines 25–31. -/
def preprocess (text : String) (lower strip_punct : Bool) : String :=
  ⟨preprocessL text.data lower strip_punct⟩

/-- `float(np.dot(v1, v2))` on 1-D arrays. -/
def dotL (v w : List ℝ) : ℝ := (List.zipWith (fun a b => a * b) v w).sum

/-- Sum of squares of the entries, i.e. the square of `np.linalg.norm`. -/
def sqSum (v : List ℝ) : ℝ := (v.map fun x => x * x).sum

/-- `np.linalg.norm(v)` on a 1-D array. -/
noncomputable def norm2 (v : List ℝ) : ℝ := Real.sqrt (sqSum v)

/-- `v1 - v2` on 1-D arrays of equal shape. -/
def vsub (v w : List ℝ) : List ℝ := List.zipWith (fun a b => a - b) v w

/-- `_unit` from app.py lines 34–36: return `v` unchanged when its norm is
zero, else `v / norm(v)`. -/
noncomputable def _unit (v : List ℝ) : List ℝ :=
  if norm2 v = 0 then v else v.map fun x => x / norm2 v

/-- `euclidean_to_similarity` from app.py lines 39–41. -/
noncomputable def euclidean_to_similarity (v1 v2 : List ℝ) : ℝ :=
  1 / (1 + norm2 (vsub v1 v2))

/-- `compute_similarity` from app.py lines 44–58.  The `raise ValueError`
branch is modelled as `Except.error`. -/
noncomputable def compute_similarity (emb1 emb2 : List ℝ) (metric : String)
    (already_unit : Bool) : Except String ℝ :=
  let v1 := if already_unit then emb1 else _unit emb1
  let v2 := if already_unit then emb2 else _unit emb2
  if metric = "Cosine" then .ok (dotL v1 v2)
  else if metric = "Dot product" then .ok (dotL v1 v2)
  else if metric = "Euclidean→similarity" then .ok (euclidean_to_similarity v1 v2)
  else .error "Unknown metric"

/-- The sidebar configuration consumed by the run handler. -/
structure Config where
  model_name : String
  metric : String
  do_lower : Bool
  do_strip : Bool
  enable_kw : Bool

/-- The `st.session_state.last` dictionary assembled at app.py lines 312–328. -/
structure ComparisonRecord where
  time : String
  model : String
  metric : String
  scraped : String
  query : String
  p_scraped : String
  p_query : String
  full_sim : ℝ
  kw_sim : Option ℝ
  kw_scraped : List (String × ℝ)
  kw_query : List (String × ℝ)
  v_scraped : List ℝ
  v_query : List ℝ
  v_scraped_kw : Option (List ℝ)
  v_query_kw : Option (List ℝ)

/-- A history entry, the dictionary inserted at app.py lines 331–346.  The
full-sentence vector fields are `Option` because `pca_history_plot_return_fig`
guards against `None` there. -/
structure HistRecord where
  time : String
  model : String
  metric : String
  scraped : String
  query : String
  full_sim : ℝ
  kw_sim : Option ℝ
  v_scraped : Option (List ℝ)
  v_query : Option (List ℝ)
  v_scraped_kw : Option (List ℝ)
  v_query_kw : Option (List ℝ)

/-- The surrogate text actually embedded at app.py lines 302–308:
`" ; ".join(phrases)` where a falsy (empty) join falls back to the full
preprocessed text (`text_kw or p_text`). -/
def surrogate (phrases : List (String × ℝ)) (fallback : String) : String :=
  let t := String.intercalate " ; " (phrases.map Prod.fst)
  if t = "" then fallback else t

/-- The comparison pipeline of the run handler (app.py lines 277–328):
preprocess, embed, full similarity, optional keyword branch, record assembly.
`embedder` models `embedder.encode(·, normalize_embeddings=True)` and
`extractor` models `extract_keywords_kwbert(kwbert, ·, top_k, ngram_min,
ngram_max)`, both external providers. -/
noncomputable def compare (embedder : String → List ℝ)
    (extractor : String → List (String × ℝ)) (cfg : Config)
    (time scraped query : String) : Except String ComparisonRecord :=
  let p_scraped := preprocess scraped cfg.do_lower cfg.do_strip
  let p_query := preprocess query cfg.do_lower cfg.do_strip
  let v_scraped := embedder p_scraped
  let v_query := embedder p_query
  match compute_similarity v_scraped v_query cfg.metric true with
  | .error e => .error e
  | .ok full_sim =>
    if cfg.enable_kw then
      let kw_scraped := extractor p_scraped
      let kw_query := extractor p_query
      let v_scraped_kw := embedder (surrogate kw_scraped p_scraped)
      let v_query_kw := embedder (surrogate kw_query p_query)
      match compute_similarity v_scraped_kw v_query_kw cfg.metric true with
      | .error e => .error e
      | .ok kw_sim =>
        .ok { time := time, model := cfg.model_name, metric := cfg.metric,
              scraped := scraped, query := query,
              p_scraped := p_scraped, p_query := p_query,
              full_sim := full_sim, kw_sim := some kw_sim,
              kw_scraped := kw_scraped, kw_query := kw_query,
              v_scraped := v_scraped, v_query := v_query,
              v_scraped_kw := some v_scraped_kw, v_query_kw := some v_query_kw }
    else
      .ok { time := time, model := cfg.model_name, metric := cfg.metric,
            scraped := scraped, query := query,
            p_scraped := p_scraped, p_query := p_query,
            full_sim := full_sim, kw_sim := none,
            kw_scraped := [], kw_query := [],
            v_scraped := v_scraped, v_query := v_query,
            v_scraped_kw := none, v_query_kw := none }

/-- Projection of a last-result record to the history entry inserted at
app.py lines 333–345. -/
def toHist (r : ComparisonRecord) : HistRecord :=
  { time := r.time, model := r.model, metric := r.metric,
    scraped := r.scraped, query := r.query,
    full_sim := r.full_sim, kw_sim := r.kw_sim,
    v_scraped := some r.v_scraped, v_query := some r.v_query,
    v_scraped_kw := r.v_scraped_kw, v_query_kw := r.v_query_kw }

/-- `history.insert(0, rec)` followed by `history = history[:50]`
(app.py lines 331–347). -/
def historyInsert (r : HistRecord) (h : List HistRecord) : List HistRecord :=
  (r :: h).take 50

/-- The mutable session state touched by the run handler. -/
structure AppState where
  history : List HistRecord
  last : Option ComparisonRecord

/-- The `if run:` block of app.py lines 273–347.  Python's `not scraped`
is true exactly for the empty string, so the guard rejects only empty raw
texts; on rejection a warning is shown and the state is left unchanged. -/
noncomputable def runHandler (embedder : String → List ℝ)
    (extractor : String → List (String × ℝ)) (cfg : Config)
    (time scraped query : String) (st : AppState) : Except String AppState :=
  if scraped = "" ∨ query = "" then .ok st
  else
    match compare embedder extractor cfg time scraped query with
    | .error e => .error e
    | .ok r => .ok { last := some r, history := historyInsert (toHist r) st.history }

/-- The pooling loop of `pca_history_plot_return_fig` (app.py lines 151–162):
per record, the two full-sentence vectors whenever both are present, then the
two keyword vectors whenever both are present. -/
def poolPoints : List HistRecord → List (List ℝ)
  | [] => []
  | h :: t =>
    match h.v_scraped, h.v_query with
    | some vs, some vq =>
      (vs :: vq ::
        (match h.v_scraped_kw, h.v_query_kw with
         | some a, some b => [a, b]
         | _, _ => [])) ++ poolPoints t
    | _, _ => poolPoints t

/-- Row normalization `X / (np.linalg.norm(X, axis=1, keepdims=True) + 1e-12)`
(app.py line 169). -/
noncomputable def rowNormalize (v : List ℝ) : List ℝ :=
  v.map fun x => x / (norm2 v + 1 / 10 ^ 12)

/-- Modelled from the spec: sklearn's `PCA(n_components=2)` is an external
collaborator not under src; per §4.6 the Projection Engine "fits a
2-component linear projection … and maps every input vector to its 2D
coordinate under that projection".  The two fitted directions are taken as
parameters `w1 w2`; each input row is mapped to its pair of coordinates. -/
def pcaFitTransform (w1 w2 : List ℝ) (X : List (List ℝ)) : List (ℝ × ℝ) :=
  X.map fun v => (dotL v w1, dotL v w2)

/-- `pca_history_plot_return_fig` (app.py lines 146–193), reduced to its
data content: pool the history vectors, return `none` (the placeholder /
`InsufficientData` path) when fewer than 3 points were pooled, else
row-normalize and project every pooled point to 2D. -/
noncomputable def pca_history_plot_return_fig (w1 w2 : List ℝ)
    (history : List HistRecord) : Option (List (ℝ × ℝ)) :=
  let points := poolPoints history
  if points.length < 3 then none
  else some (pcaFitTransform w1 w2 (points.map rowNormalize))

/-- `label_for(score, th)` from app.py lines 379–387. -/
noncomputable def label_for (score : Option ℝ) (th : ℝ) : String :=
  match score with
  | none => "—"
  | some s =>
    if s ≥ th then "✅ Likely match"
    else if s ≥ th - 0.10 then "⚠️ Borderline"
    else "❌ No match"

/-- A concrete embedding provider for concrete runs: every text maps to the
one-dimensional vector `[1]`. -/
def embW : String → List ℝ := fun _ => [1]

/-- A concrete keyphrase provider returning zero phrases (Scenario D). -/
def extW : String → List (String × ℝ) := fun _ => []

/-- A concrete keyphrase provider returning one phrase. -/
def extK : String → List (String × ℝ) := fun _ => [("cat", 1)]

/-- A concrete configuration with keyword extraction disabled. -/
def cfgW : Config :=
  { model_name := "m", metric := "Cosine", do_lower := false,
    do_strip := false, enable_kw := false }

/-- A concrete configuration with keyword extraction enabled. -/
def cfgK : Config :=
  { model_name := "m", metric := "Cosine", do_lower := false,
    do_strip := false, enable_kw := true }

/-- A concrete history record pooling two vectors. -/
def histW : HistRecord :=
  { time := "t", model := "m", metric := "Cosine", scraped := "s", query := "q",
    full_sim := 0, kw_sim := none, v_scraped := some [1], v_query := some [0],
    v_scraped_kw := none, v_query_kw := none }

/-! ### Lemmas on the preprocessing pipeline (towards idempotency) -/

/-- Adjacent-character separation invariant: of two adjacent characters at
least one is not whitespace, i.e. no whitespace run of length two survives. -/
def sepOK (a b : Char) : Prop := isSpaceCh a = false ∨ isSpaceCh b = false

theorem lowerCh_toNat (c : Char) (h : 65 ≤ c.toNat ∧ c.toNat ≤ 90) :
    (lowerCh c).toNat = c.toNat + 32 := by
  have hv : (c.toNat + 32).isValidChar := by
    constructor
    omega
  simp only [lowerCh, if_pos h]
  simp [Char.ofNat, hv]
  rfl

theorem lowerCh_lowerCh (c : Char) : lowerCh (lowerCh c) = lowerCh c := by
  by_cases h : 65 ≤ c.toNat ∧ c.toNat ≤ 90
  · have ht := lowerCh_toNat c h
    rw [lowerCh, if_neg (by rw [ht]; omega)]
  · rw [lowerCh, if_neg (by rw [lowerCh, if_neg h]; exact h)]

theorem lowerCh_space : lowerCh ' ' = ' ' := by decide

theorem isWordCh_space_false (c : Char) (h : isWordCh c = true) :
    isSpaceCh c = false := by
  by_cases hs : isSpaceCh c = true
  · exfalso
    have h6 : c = ' ' ∨ c = '\t' ∨ c = '\n' ∨ c = '\r' ∨ c = '\x0b' ∨ c = '\x0c' := by
      simpa [isSpaceCh, or_assoc] using hs
    rcases h6 with rfl | rfl | rfl | rfl | rfl | rfl <;> exact absurd h (by decide)
  · simpa using hs

theorem mem_punctToSpace (l : List Char) (c : Char) (h : c ∈ punctToSpace l) :
    c = ' ' ∨ c ∈ l := by
  rw [punctToSpace, List.mem_map] at h
  obtain ⟨d, hd, he⟩ := h
  by_cases hw : (isWordCh d || isSpaceCh d) = true
  · rw [if_pos hw] at he
    right
    rw [← he]
    exact hd
  · rw [if_neg hw] at he
    left
    exact he.symm

theorem class_punctToSpace (l : List Char) :
    ∀ c ∈ punctToSpace l, (isWordCh c || isSpaceCh c) = true := by
  intro c hc
  rw [punctToSpace, List.mem_map] at hc
  obtain ⟨d, _, he⟩ := hc
  by_cases hw : (isWordCh d || isSpaceCh d) = true
  · rw [if_pos hw] at he
    rw [← he]
    exact hw
  · rw [if_neg hw] at he
    rw [← he]
    decide

theorem collapseAux_true_head (l : List Char) :
    ∀ c ∈ (collapseAux true l).head?, isSpaceCh c = false := by
  induction l with
  | nil =>
    intro c hc
    simp [collapseAux] at hc
  | cons a t ih =>
    intro c hc
    by_cases ha : isSpaceCh a = true
    · rw [show collapseAux true (a :: t) = collapseAux true t by
        simp [collapseAux, ha]] at hc
      exact ih c hc
    · rw [show collapseAux true (a :: t) = a :: collapseAux false t by
        simp [collapseAux, ha]] at hc
      simp only [List.head?_cons, Option.mem_def, Option.some.injEq] at hc
      rw [← hc]
      simpa using ha

theorem chain'_collapseAux (l : List Char) :
    ∀ b, List.Chain' sepOK (collapseAux b l) := by
  induction l with
  | nil =>
    intro b
    simp [collapseAux]
  | cons a t ih =>
    intro b
    by_cases ha : isSpaceCh a = true
    · cases b with
      | true =>
        rw [show collapseAux true (a :: t) = collapseAux true t by
          simp [collapseAux, ha]]
        exact ih true
      | false =>
        rw [show collapseAux false (a :: t) = ' ' :: collapseAux true t by
          simp [collapseAux, ha]]
        rw [List.chain'_cons']
        exact ⟨fun c hc => Or.inr (collapseAux_true_head t c hc), ih true⟩
    · rw [show collapseAux b (a :: t) = a :: collapseAux false t by
        simp [collapseAux, ha]]
      rw [List.chain'_cons']
      exact ⟨fun c _ => Or.inl (by simpa using ha), ih false⟩

theorem mem_collapseAux (l : List Char) :
    ∀ b c, c ∈ collapseAux b l → c = ' ' ∨ (c ∈ l ∧ isSpaceCh c = false) := by
  induction l with
  | nil =>
    intro b c hc
    simp [collapseAux] at hc
  | cons a t ih =>
    intro b c hc
    by_cases ha : isSpaceCh a = true
    · cases b with
      | true =>
        rw [show collapseAux true (a :: t) = collapseAux true t by
          simp [collapseAux, ha]] at hc
        rcases ih true c hc with h | ⟨hm, hs⟩
        · exact Or.inl h
        · exact Or.inr ⟨List.mem_cons_of_mem a hm, hs⟩
      | false =>
        rw [show collapseAux false (a :: t) = ' ' :: collapseAux true t by
          simp [collapseAux, ha]] at hc
        rcases List.mem_cons.mp hc with h | h
        · exact Or.inl h
        · rcases ih true c h with h2 | ⟨hm, hs⟩
          · exact Or.inl h2
          · exact Or.inr ⟨List.mem_cons_of_mem a hm, hs⟩
    · rw [show collapseAux b (a :: t) = a :: collapseAux false t by
        simp [collapseAux, ha]] at hc
      rcases List.mem_cons.mp hc with h | h
      · refine Or.inr ⟨?_, ?_⟩
        · rw [h]
          exact List.mem_cons_self a t
        · rw [h]
          simpa using ha
      · rcases ih false c h with h2 | ⟨hm, hs⟩
        · exact Or.inl h2
        · exact Or.inr ⟨List.mem_cons_of_mem a hm, hs⟩

theorem class_collapseWS (l : List Char)
    (hl : ∀ c ∈ l, (isWordCh c || isSpaceCh c) = true) :
    ∀ c ∈ collapseWS l, isWordCh c = true ∨ c = ' ' := by
  intro c hc
  rcases mem_collapseAux l false c hc with h | ⟨hm, hs⟩
  · exact Or.inr h
  · left
    rcases (by simpa using hl c hm : isWordCh c = true ∨ isSpaceCh c = true) with h | h
    · exact h
    · rw [h] at hs
      exact absurd hs (by simp)

theorem head_dropWhile_not (l : List Char) (p : Char → Bool) :
    ∀ c ∈ (l.dropWhile p).head?, p c = false := by
  induction l with
  | nil =>
    intro c hc
    simp at hc
  | cons a t ih =>
    intro c hc
    by_cases ha : p a = true
    · rw [List.dropWhile_cons_of_pos ha] at hc
      exact ih c hc
    · rw [List.dropWhile_cons_of_neg ha] at hc
      simp only [List.head?_cons, Option.mem_def, Option.some.injEq] at hc
      rw [← hc]
      simpa using ha

theorem isPrefix_head {l m : List Char} (h : l <+: m) :
    ∀ c ∈ l.head?, m.head? = some c := by
  intro c hc
  obtain ⟨t, rfl⟩ := h
  cases l with
  | nil => simp at hc
  | cons a s =>
    simp only [List.head?_cons, Option.mem_def, Option.some.injEq] at hc
    simp [List.head?_cons, hc]

theorem mem_stripWS (l : List Char) : ∀ c ∈ stripWS l, c ∈ l := by
  intro c hc
  rw [stripWS, List.mem_reverse] at hc
  have h1 : c ∈ (l.dropWhile isSpaceCh).reverse :=
    (List.dropWhile_suffix isSpaceCh).sublist.subset hc
  rw [List.mem_reverse] at h1
  exact (List.dropWhile_suffix isSpaceCh).sublist.subset h1

theorem chain'_stripWS {l : List Char} (h : List.Chain' sepOK l) :
    List.Chain' sepOK (stripWS l) := by
  have h1 : List.Chain' sepOK (l.dropWhile isSpaceCh) :=
    h.suffix (List.dropWhile_suffix _)
  have h2 : List.Chain' sepOK (l.dropWhile isSpaceCh).reverse := by
    rw [List.chain'_reverse]
    exact h1.imp fun a b hab => hab.symm
  have h3 : List.Chain' sepOK ((l.dropWhile isSpaceCh).reverse.dropWhile isSpaceCh) :=
    h2.suffix (List.dropWhile_suffix _)
  rw [stripWS, List.chain'_reverse]
  exact h3.imp fun a b hab => hab.symm

theorem stripWS_head (l : List Char) :
    ∀ c ∈ (stripWS l).head?, isSpaceCh c = false := by
  intro c hc
  have hpre : stripWS l <+: l.dropWhile isSpaceCh := by
    have h0 : ((l.dropWhile isSpaceCh).reverse.dropWhile isSpaceCh).reverse <+:
        (l.dropWhile isSpaceCh).reverse.reverse :=
      List.reverse_prefix.mpr (List.dropWhile_suffix _)
    rw [List.reverse_reverse] at h0
    exact h0
  exact head_dropWhile_not l isSpaceCh c (isPrefix_head hpre c hc)

theorem stripWS_last (l : List Char) :
    ∀ c ∈ (stripWS l).reverse.head?, isSpaceCh c = false := by
  intro c hc
  rw [stripWS, List.reverse_reverse] at hc
  exact head_dropWhile_not _ isSpaceCh c hc

theorem map_id_of (l : List Char) (f : Char → Char) (h : ∀ c ∈ l, f c = c) :
    l.map f = l := by
  induction l with
  | nil => rfl
  | cons a t ih =>
    simp only [List.map_cons, h a (List.mem_cons_self a t)]
    rw [ih fun c hc => h c (List.mem_cons_of_mem a hc)]

theorem punctToSpace_fixed (l : List Char)
    (h : ∀ c ∈ l, isWordCh c = true ∨ c = ' ') : punctToSpace l = l := by
  rw [punctToSpace]
  apply map_id_of
  intro c hc
  rcases h c hc with hw | hs
  · rw [if_pos (by simp [hw])]
  · rw [hs]
    decide

theorem collapseAux_fixed (l : List Char)
    (hcl : ∀ c ∈ l, isSpaceCh c = true → c = ' ')
    (hch : List.Chain' sepOK l) :
    collapseAux false l = l ∧
      ((∀ c ∈ l.head?, isSpaceCh c = false) → collapseAux true l = l) := by
  induction l with
  | nil => exact ⟨rfl, fun _ => rfl⟩
  | cons a t ih =>
    have hch' := List.chain'_cons'.mp hch
    have iht := ih (fun c hc h => hcl c (List.mem_cons_of_mem a hc) h) hch'.2
    by_cases ha : isSpaceCh a = true
    · have ha' : a = ' ' := hcl a (List.mem_cons_self a t) ha
      have hth : ∀ c ∈ t.head?, isSpaceCh c = false := by
        intro c hc
        rcases hch'.1 c hc with h | h
        · rw [ha] at h
          exact absurd h (by simp)
        · exact h
      constructor
      · rw [show collapseAux false (a :: t) = ' ' :: collapseAux true t by
          simp [collapseAux, ha]]
        rw [iht.2 hth, ha']
      · intro hh
        have := hh a (by simp)
        rw [ha] at this
        exact absurd this (by simp)
    · constructor
      · rw [show collapseAux false (a :: t) = a :: collapseAux false t by
          simp [collapseAux, ha]]
        rw [iht.1]
      · intro _
        rw [show collapseAux true (a :: t) = a :: collapseAux false t by
          simp [collapseAux, ha]]
        rw [iht.1]

theorem stripWS_fixed (l : List Char)
    (h1 : ∀ c ∈ l.head?, isSpaceCh c = false)
    (h2 : ∀ c ∈ l.reverse.head?, isSpaceCh c = false) : stripWS l = l := by
  have d : ∀ (m : List Char), (∀ c ∈ m.head?, isSpaceCh c = false) →
      m.dropWhile isSpaceCh = m := by
    intro m hm
    cases m with
    | nil => rfl
    | cons a t =>
      exact List.dropWhile_cons_of_neg (by simpa using hm a (by simp))
  rw [stripWS, d l h1, d l.reverse h2, List.reverse_reverse]

theorem pipeWS_classOK (l : List Char) :
    ∀ c ∈ pipeWS l, isWordCh c = true ∨ c = ' ' := by
  intro c hc
  exact class_collapseWS (punctToSpace l) (class_punctToSpace l) c
    (mem_stripWS _ c hc)

theorem pipeWS_chain (l : List Char) : List.Chain' sepOK (pipeWS l) :=
  chain'_stripWS (chain'_collapseAux (punctToSpace l) false)

theorem pipeWS_head (l : List Char) :
    ∀ c ∈ (pipeWS l).head?, isSpaceCh c = false :=
  stripWS_head _

theorem pipeWS_last (l : List Char) :
    ∀ c ∈ (pipeWS l).reverse.head?, isSpaceCh c = false :=
  stripWS_last _

theorem mem_pipeWS (l : List Char) : ∀ c ∈ pipeWS l, c = ' ' ∨ c ∈ l := by
  intro c hc
  have h1 : c ∈ collapseWS (punctToSpace l) := mem_stripWS _ c hc
  rcases mem_collapseAux _ false c h1 with h | ⟨h2, _⟩
  · exact Or.inl h
  · exact mem_punctToSpace l c h2

theorem pipeWS_idem (l : List Char) : pipeWS (pipeWS l) = pipeWS l := by
  have hclass := pipeWS_classOK l
  have hp : punctToSpace (pipeWS l) = pipeWS l := punctToSpace_fixed _ hclass
  have hcl : ∀ c ∈ pipeWS l, isSpaceCh c = true → c = ' ' := by
    intro c hc hs
    rcases hclass c hc with h | h
    · rw [isWordCh_space_false c h] at hs
      exact absurd hs (by simp)
    · exact h
  have hc2 : collapseWS (pipeWS l) = pipeWS l :=
    (collapseAux_fixed _ hcl (pipeWS_chain l)).1
  have hs2 : stripWS (pipeWS l) = pipeWS l :=
    stripWS_fixed _ (pipeWS_head l) (pipeWS_last l)
  rw [show pipeWS (pipeWS l) = stripWS (collapseWS (punctToSpace (pipeWS l))) from rfl]
  rw [hp, hc2, hs2]

theorem preprocessL_idem (t : List Char) (L S : Bool) :
    preprocessL (preprocessL t L S) L S = preprocessL t L S := by
  cases S with
  | false =>
    cases L with
    | false => rfl
    | true =>
      show (t.map lowerCh).map lowerCh = t.map lowerCh
      apply map_id_of
      intro c hc
      rw [List.mem_map] at hc
      obtain ⟨d, _, rfl⟩ := hc
      exact lowerCh_lowerCh d
  | true =>
    cases L with
    | false =>
      show pipeWS (pipeWS t) = pipeWS t
      exact pipeWS_idem t
    | true =>
      show pipeWS ((pipeWS (t.map lowerCh)).map lowerCh) = pipeWS (t.map lowerCh)
      have hfix : (pipeWS (t.map lowerCh)).map lowerCh = pipeWS (t.map lowerCh) := by
        apply map_id_of
        intro c hc
        rcases mem_pipeWS _ c hc with rfl | hm
        · exact lowerCh_space
        · rw [List.mem_map] at hm
          obtain ⟨d, _, rfl⟩ := hm
          exact lowerCh_lowerCh d
      rw [hfix, pipeWS_idem]

/-- C7: `preprocess` is idempotent: for every text `t` and every combination
of the lowercase and strip-punctuation flags `L`, `S`,
`preprocess(preprocess(t, L, S), L, S) == preprocess(t, L, S)`. -/
theorem preprocess_idem (t : String) (L S : Bool) :
    preprocess (preprocess t L S) L S = preprocess t L S :=
  congrArg String.mk (preprocessL_idem t.data L S)

/-! ### Similarity engine -/

theorem sqSum_nonneg (v : List ℝ) : 0 ≤ sqSum v := by
  apply List.sum_nonneg
  intro x hx
  rw [List.mem_map] at hx
  obtain ⟨y, _, rfl⟩ := hx
  exact mul_self_nonneg y

theorem sqSum_eq_zero_iff (v : List ℝ) : sqSum v = 0 ↔ ∀ x ∈ v, x = 0 := by
  induction v with
  | nil => simp [sqSum]
  | cons a t ih =>
    rw [show sqSum (a :: t) = a * a + sqSum t by simp [sqSum]]
    rw [add_eq_zero_iff_of_nonneg (mul_self_nonneg a) (sqSum_nonneg t)]
    simp [mul_self_eq_zero, ih]

theorem vsub_zero_iff (v w : List ℝ) (h : v.length = w.length) :
    (∀ x ∈ vsub v w, x = 0) ↔ v = w := by
  induction v generalizing w with
  | nil =>
    cases w with
    | nil => simp [vsub]
    | cons b s => simp at h
  | cons a t ih =>
    cases w with
    | nil => simp at h
    | cons b s =>
      rw [show vsub (a :: t) (b :: s) = (a - b) :: vsub t s by simp [vsub]]
      simp only [List.mem_cons, List.cons.injEq]
      constructor
      · intro hz
        have hab : a = b := by
          have := hz (a - b) (Or.inl rfl)
          linarith
        refine ⟨hab, ?_⟩
        rw [← ih s (by simpa using h)]
        intro x hx
        exact hz x (Or.inr hx)
      · rintro ⟨rfl, rfl⟩
        intro x hx
        rcases hx with rfl | hx
        · ring
        · exact ((ih t rfl).mpr rfl) x hx

/-- C8: for every pair of equal-dimension vectors the Euclidean→similarity
value `1 / (1 + distance)` lies in `(0, 1]`, and equals `1.0` iff the
vectors are equal. -/
theorem euclidean_to_similarity_mem_Ioc (v1 v2 : List ℝ)
    (h : v1.length = v2.length) :
    0 < euclidean_to_similarity v1 v2 ∧ euclidean_to_similarity v1 v2 ≤ 1
      ∧ (euclidean_to_similarity v1 v2 = 1 ↔ v1 = v2) := by
  have hs : 0 ≤ sqSum (vsub v1 v2) := sqSum_nonneg _
  have hd : 0 ≤ norm2 (vsub v1 v2) := Real.sqrt_nonneg _
  have hpos : (0 : ℝ) < 1 + norm2 (vsub v1 v2) := by linarith
  refine ⟨?_, ?_, ?_⟩
  · rw [euclidean_to_similarity]
    positivity
  · rw [euclidean_to_similarity, div_le_one hpos]
    linarith
  · rw [euclidean_to_similarity, div_eq_one_iff_eq (by linarith)]
    constructor
    · intro h1
      have hz : norm2 (vsub v1 v2) = 0 := by linarith
      rw [norm2, Real.sqrt_eq_zero hs] at hz
      exact (vsub_zero_iff v1 v2 h).mp ((sqSum_eq_zero_iff _).mp hz)
    · intro h1
      have hz : sqSum (vsub v1 v2) = 0 :=
        (sqSum_eq_zero_iff _).mpr ((vsub_zero_iff v1 v2 h).mpr h1)
      rw [norm2, hz, Real.sqrt_zero, add_zero]

/-- Witness for C8 at the concrete input `v1 = [1, 2]`, `v2 = [3, 4]`. -/
theorem euclidean_to_similarity_mem_Ioc_witness :
    0 < euclidean_to_similarity [1, 2] [3, 4]
      ∧ euclidean_to_similarity [1, 2] [3, 4] ≤ 1
      ∧ (euclidean_to_similarity [1, 2] [3, 4] = 1 ↔ [(1 : ℝ), 2] = [3, 4]) :=
  euclidean_to_similarity_mem_Ioc [1, 2] [3, 4] rfl

/-- C9: the similarity engine reports "Unknown metric" exactly when the
metric identifier is outside the three enumerated values, and returns a
result (never raising, never defaulting) exactly for the three enumerated
metrics. -/
theorem compute_similarity_unknown_metric (v w : List ℝ) (b : Bool) (m : String) :
    (compute_similarity v w m b = .error "Unknown metric"
      ↔ ¬(m = "Cosine" ∨ m = "Dot product" ∨ m = "Euclidean→similarity"))
  ∧ ((∃ r, compute_similarity v w m b = .ok r)
      ↔ (m = "Cosine" ∨ m = "Dot product" ∨ m = "Euclidean→similarity")) := by
  by_cases h1 : m = "Cosine" <;> by_cases h2 : m = "Dot product" <;>
    by_cases h3 : m = "Euclidean→similarity" <;>
    simp [compute_similarity, h1, h2, h3]

/-- C1 counterexample: with `already_unit = false` the engine normalizes both
inputs before the metric dispatch, so the "Dot product" metric does not
return the raw dot product of the vectors as given: on `v1 = v2 = [3, 0]`
the raw dot product is `9` but the engine returns `1`. -/
theorem dot_product_not_raw_on_nonunit :
    compute_similarity [3, 0] [3, 0] "Dot product" false ≠
      Except.ok (dotL [3, 0] [3, 0]) := by
  have hs : sqSum [(3 : ℝ), 0] = 9 := by
    simp [sqSum]
    norm_num
  have hnorm : norm2 [(3 : ℝ), 0] = 3 := by
    rw [norm2, hs, show (9 : ℝ) = 3 ^ 2 by norm_num, Real.sqrt_sq (by norm_num : (0:ℝ) ≤ 3)]
  have hu : _unit [(3 : ℝ), 0] = [1, 0] := by
    rw [_unit, if_neg (by rw [hnorm]; norm_num)]
    rw [hnorm]
    norm_num
  intro hcontra
  have heval : compute_similarity [3, 0] [3, 0] "Dot product" false = .ok 1 := by
    simp only [compute_similarity, Bool.false_eq_true, if_false, hu]
    norm_num [dotL]
  rw [heval] at hcontra
  have h9 : dotL [(3 : ℝ), 0] [3, 0] = 9 := by
    simp [dotL]
    norm_num
  rw [h9] at hcontra
  have := Except.ok.inj hcontra
  norm_num at this

/-- C1 amended: under "Dot product" the engine returns the dot product of the
vectors after the shared normalization step — the raw dot product only when
`already_unit` is true — and "Dot product" computes exactly the same value as
"Cosine" on every input, unit or not. -/
theorem dot_product_equals_cosine (v w : List ℝ) :
    compute_similarity v w "Dot product" true = .ok (dotL v w)
      ∧ ∀ b : Bool, compute_similarity v w "Dot product" b =
          compute_similarity v w "Cosine" b := by
  constructor
  · simp [compute_similarity]
  · intro b
    simp [compute_similarity]

/-! ### Classification bands -/

/-- C10: for every threshold and present score the classification label is
"Likely match" iff `score ≥ th`, "Borderline" iff `th - 0.10 ≤ score < th`,
"No match" iff `score < th - 0.10`, and an absent score yields the
placeholder label; the three bands partition the scores. -/
theorem label_for_bands (th s : ℝ) :
    (label_for (some s) th = "✅ Likely match" ↔ th ≤ s)
  ∧ (label_for (some s) th = "⚠️ Borderline" ↔ th - 0.10 ≤ s ∧ s < th)
  ∧ (label_for (some s) th = "❌ No match" ↔ s < th - 0.10)
  ∧ label_for none th = "—" := by
  refine ⟨?_, ?_, ?_, rfl⟩ <;>
    · rw [label_for]
      split_ifs with h1 h2 <;> simp_all <;> linarith

/-! ### History store -/

theorem take_append_take {α : Type} (a b : List α) (n : Nat) :
    (a ++ b.take n).take n = (a ++ b).take n := by
  rw [List.take_append_eq_append_take, List.take_append_eq_append_take,
    List.take_take, Nat.min_eq_left (Nat.sub_le n a.length)]

theorem foldl_historyInsert (rs : List HistRecord) (h0 : List HistRecord)
    (hlen : h0.length ≤ 50) :
    rs.foldl (fun h r => historyInsert r h) h0 = (rs.reverse ++ h0).take 50 := by
  induction rs generalizing h0 with
  | nil =>
    simp [List.take_of_length_le hlen]
  | cons r rs ih =>
    rw [List.foldl_cons]
    rw [ih (historyInsert r h0) (by simp only [historyInsert, List.length_take]; omega)]
    rw [show historyInsert r h0 = (r :: h0).take 50 from rfl]
    rw [take_append_take, List.reverse_cons, List.append_assoc]
    rfl

/-- C4: starting from the empty store, after any sequence of inserts the
history equals the reversed insert sequence truncated to capacity 50 — so it
never exceeds 50 records, holds `min n 50` records after `n` inserts (in
particular exactly the 50 most recent, newest first, after 60), and the most
recent insert is always at index 0. -/
theorem history_capacity_newest_first (rs : List HistRecord) :
    rs.foldl (fun h r => historyInsert r h) [] = rs.reverse.take 50
  ∧ (rs.foldl (fun h r => historyInsert r h) []).length = min rs.length 50
  ∧ (rs.foldl (fun h r => historyInsert r h) []).length ≤ 50
  ∧ (rs.foldl (fun h r => historyInsert r h) []).head? = rs.getLast? := by
  have e := foldl_historyInsert rs [] (by simp)
  rw [List.append_nil] at e
  have ht : ∀ (l : List HistRecord), (l.take 50).head? = l.head? := by
    intro l
    cases l with
    | nil => rfl
    | cons c t => rfl
  refine ⟨e, ?_, ?_, ?_⟩
  · rw [e, List.length_take, List.length_reverse, Nat.min_comm]
  · rw [e, List.length_take]
    exact Nat.min_le_left 50 _
  · rw [e, ht, List.head?_reverse]

/-! ### Comparison orchestration -/

/-- C2 counterexample: the guard `if not scraped or not query` tests Python
truthiness, which only the empty string fails; with the whitespace-only
scraped text `" "` the comparison runs anyway: a record is created and the
history grows from 0 to 1 entries, contradicting the claimed rejection. -/
theorem whitespace_only_input_not_rejected :
    ∃ st2, runHandler embW extW cfgW "00:00:00" " " "x" ⟨[], none⟩ = .ok st2
      ∧ st2.history.length = 1 ∧ st2.last.isSome = true := by
  refine ⟨_, rfl, rfl, rfl⟩

/-- C2 amended: the run handler rejects — warning only, no similarity
computed, no record created, history unchanged — exactly when a raw text is
the empty string (whitespace-only non-empty texts are not rejected, see the
counterexample). -/
theorem empty_input_rejected (embedder : String → List ℝ)
    (extractor : String → List (String × ℝ)) (cfg : Config)
    (time scraped query : String) (st : AppState)
    (h : scraped = "" ∨ query = "") :
    runHandler embedder extractor cfg time scraped query st = .ok st := by
  rw [runHandler, if_pos h]

/-- Witness for the amended C2 at Scenario B (`scraped = ""`). -/
theorem empty_input_rejected_witness :
    runHandler embW extW cfgW "00:00:00" "" "anything" ⟨[], none⟩ =
      .ok ⟨[], none⟩ :=
  empty_input_rejected embW extW cfgW "00:00:00" "" "anything" ⟨[], none⟩
    (Or.inl rfl)

/-- C6: in every record produced by `compare` the keyword-only fields
(`kw_sim`, `v_scraped_kw`, `v_query_kw`) are each present exactly when
keyword extraction is enabled — hence jointly present or jointly absent. -/
theorem record_keyword_fields_joint (embedder : String → List ℝ)
    (extractor : String → List (String × ℝ)) (cfg : Config)
    (time scraped query : String) (r : ComparisonRecord)
    (h : compare embedder extractor cfg time scraped query = .ok r) :
    r.kw_sim.isSome = cfg.enable_kw
  ∧ r.v_scraped_kw.isSome = cfg.enable_kw
  ∧ r.v_query_kw.isSome = cfg.enable_kw := by
  rw [compare] at h
  split at h
  · exact absurd h (by simp)
  · split at h
    case isTrue hkw =>
      simp only [] at h
      split at h
      · exact absurd h (by simp)
      · rw [Except.ok.injEq] at h
        rw [← h]
        simp [hkw]
    case isFalse hkw =>
      rw [Except.ok.injEq] at h
      rw [← h]
      rw [Bool.not_eq_true] at hkw
      simp [hkw]

/-- Witness for C6 with keyword extraction enabled. -/
theorem record_keyword_fields_joint_witness :
    ∃ r, compare embW extK cfgK "00:00:00" "a" "b" = .ok r
      ∧ r.kw_sim.isSome = cfgK.enable_kw
      ∧ r.v_scraped_kw.isSome = cfgK.enable_kw
      ∧ r.v_query_kw.isSome = cfgK.enable_kw := by
  obtain ⟨r, hr⟩ : ∃ r, compare embW extK cfgK "00:00:00" "a" "b" = .ok r :=
    ⟨_, rfl⟩
  obtain ⟨ha, hb, hc⟩ :=
    record_keyword_fields_joint embW extK cfgK "00:00:00" "a" "b" r hr
  exact ⟨r, hr, ha, hb, hc⟩

/-- C5: with keyword extraction enabled, the vectors re-embedded for the
keyword-only comparison are embeddings of the surrogate text, which is the
extracted phrases joined with `" ; "` whenever that join is non-empty and
falls back to the full preprocessed text when the extracted list is empty;
the keyword similarity is then present (computed against the fallback), not
absent. -/
theorem keyword_surrogate_fallback (embedder : String → List ℝ)
    (extractor : String → List (String × ℝ)) (cfg : Config)
    (time scraped query : String) (r : ComparisonRecord)
    (hkw : cfg.enable_kw = true)
    (h : compare embedder extractor cfg time scraped query = .ok r) :
    r.v_scraped_kw = some (embedder (surrogate
        (extractor (preprocess scraped cfg.do_lower cfg.do_strip))
        (preprocess scraped cfg.do_lower cfg.do_strip)))
  ∧ r.v_query_kw = some (embedder (surrogate
        (extractor (preprocess query cfg.do_lower cfg.do_strip))
        (preprocess query cfg.do_lower cfg.do_strip)))
  ∧ r.kw_sim.isSome = true
  ∧ (∃ ks, compute_similarity
        (embedder (surrogate
          (extractor (preprocess scraped cfg.do_lower cfg.do_strip))
          (preprocess scraped cfg.do_lower cfg.do_strip)))
        (embedder (surrogate
          (extractor (preprocess query cfg.do_lower cfg.do_strip))
          (preprocess query cfg.do_lower cfg.do_strip)))
        cfg.metric true = .ok ks ∧ r.kw_sim = some ks)
  ∧ (∀ fallback : String, surrogate [] fallback = fallback)
  ∧ (∀ (phrases : List (String × ℝ)) (fallback : String),
       String.intercalate " ; " (phrases.map Prod.fst) ≠ "" →
       surrogate phrases fallback =
         String.intercalate " ; " (phrases.map Prod.fst)) := by
  have hsur2 : ∀ (phrases : List (String × ℝ)) (fallback : String),
      String.intercalate " ; " (phrases.map Prod.fst) ≠ "" →
      surrogate phrases fallback =
        String.intercalate " ; " (phrases.map Prod.fst) := by
    intro phrases fallback hne
    rw [surrogate, if_neg hne]
  rw [compare] at h
  split at h
  · exact absurd h (by simp)
  · rw [if_pos hkw] at h
    simp only [] at h
    split at h
    next => exact absurd h (by simp)
    next ks hks =>
      rw [Except.ok.injEq] at h
      rw [← h]
      exact ⟨rfl, rfl, rfl, ⟨ks, hks, rfl⟩, fun fallback => rfl, hsur2⟩

/-- Witness for C5 at Scenario D: the extractor returns zero phrases, the
surrogate falls back to the preprocessed input, and the keyword similarity
is still computed. -/
theorem keyword_surrogate_fallback_witness :
    cfgK.enable_kw = true
  ∧ ∃ r, compare embW extW cfgK "00:00:00" "the" "the" = .ok r
      ∧ r.v_scraped_kw = some (embW "the")
      ∧ r.kw_sim.isSome = true := by
  refine ⟨rfl, ?_⟩
  obtain ⟨r, hr⟩ : ∃ r, compare embW extW cfgK "00:00:00" "the" "the" = .ok r :=
    ⟨_, rfl⟩
  have h := keyword_surrogate_fallback embW extW cfgK "00:00:00" "the" "the" r
    rfl hr
  exact ⟨r, hr, h.1, h.2.2.1⟩

/-! ### Projection engine -/

/-- C3: the history projection returns the `InsufficientData` placeholder
(`none`) exactly when fewer than 3 vectors were pooled from the history, and
otherwise succeeds with exactly one 2D coordinate pair per pooled vector. -/
theorem pca_insufficient_data (w1 w2 : List ℝ) (history : List HistRecord) :
    (pca_history_plot_return_fig w1 w2 history = none
      ↔ (poolPoints history).length < 3)
  ∧ ∀ ys, pca_history_plot_return_fig w1 w2 history = some ys →
      ys.length = (poolPoints history).length := by
  by_cases h : (poolPoints history).length < 3
  · simp [pca_history_plot_return_fig, h]
  · simp [pca_history_plot_return_fig, h, pcaFitTransform]

/-- Witness for C3: one record pools 2 vectors (placeholder returned), two
records pool 4 vectors (4 coordinate pairs returned). -/
theorem pca_insufficient_data_witness :
    pca_history_plot_return_fig [] [] [histW] = none
  ∧ ∃ ys, pca_history_plot_return_fig [] [] [histW, histW] = some ys
      ∧ ys.length = 4 := by
  constructor
  · exact (pca_insufficient_data [] [] [histW]).1.mpr (by decide)
  · obtain ⟨ys, hys⟩ :
        ∃ ys, pca_history_plot_return_fig [] [] [histW, histW] = some ys :=
      ⟨_, rfl⟩
    refine ⟨ys, hys, ?_⟩
    rw [(pca_insufficient_data [] [] [histW, histW]).2 ys hys]
    rfl

end EmbeddingPlayground
